import Mathlib

/-!
Verification of the multi-tenant knowledge-base search service (`src/app.py`).

The embedding models the two endpoints (`upload`, `search`) and the core
fusion logic: fuzzy lexical ranking with the boost cascade (lines 97-119),
the fill/backfill merge with URL deduplication (lines 121-137), and the
error paths of both endpoints.

External collaborators are parameters of the embedding:
- the lexical similarity primitive (`rapidfuzz` `fuzz` scoring) is a function
  `lex : String → String → Int`;
- the semantic matcher (FAISS `similarity_search_with_score`) is a list of
  `(document, score)` pairs handed to the result construction.
Scores are modelled as `Int`: the fusion code only compares scores, never
performs float-specific arithmetic on them.
-/

namespace KBSearch

/-- A document as stored in a tenant's corpus: metadata defaults
(`"Untitled"` title, `""` url) are applied at upload time (app.py line 57). -/
structure Doc where
  title : String
  url : String
  content : String
deriving DecidableEq, Repr

/-- A scored search hit, per-query transient value (app.py lines 78-87 and
113-119). -/
structure ScoredHit where
  title : String
  url : String
  snippet : String
  score : Int
  source : String
deriving DecidableEq, Repr

/-- Per-document fuzzy scoring and filtering, app.py lines 98-119: score
title and content against the query, keep the document iff
`max score_title score_content ≥ 80`, and apply the boost cascade. -/
def fuzzyHitFor (lex : String → String → Int) (query : String) (d : Doc) :
    Option ScoredHit :=
  let score_title := lex query d.title.toLower
  let score_content := lex query d.content.toLower
  let score := max score_title score_content
  if 80 ≤ score then
    let boosted_score :=
      if score_title = 100 then 200
      else if score_content = 100 then 180
      else if score_content < score_title then score + 50
      else score
    some { title := d.title, url := d.url, snippet := d.content.take 200,
           score := boosted_score, source := "fuzzy" }
  else
    none

/-- The Fuzzy Ranker, app.py lines 97-119: scan the corpus in order and
collect the surviving hits. -/
def fuzzyRank (lex : String → String → Int) (query : String)
    (docs : List Doc) : List ScoredHit :=
  docs.filterMap (fuzzyHitFor lex query)

/-- A document together with its raw semantic score, as returned by the
external semantic matcher. Metadata fields are optional because the code
re-applies defaults when reading them (app.py lines 80-81). -/
structure SemResult where
  mtitle : Option String
  murl : Option String
  page_content : String
  score : Int
deriving DecidableEq, Repr

/-- Conversion of one semantic matcher result to a ScoredHit,
app.py lines 78-87. -/
def mkSemanticHit (r : SemResult) : ScoredHit :=
  { title := r.mtitle.getD "Untitled",
    url := r.murl.getD "",
    snippet := r.page_content.take 200,
    score := r.score,
    source := "semantic" }

/-- The semantic hit list, app.py lines 78-87. -/
def mkSemanticHits (semantic_results : List SemResult) : List ScoredHit :=
  semantic_results.map mkSemanticHit

/-- The comparison used by `sorted(..., key=lambda x: x["score"], reverse=True)`:
`a` may stay before `b` iff `b.score ≤ a.score`. Python's sort is stable and
`reverse=True` keeps ties in original order, which `List.mergeSort` with this
relation reproduces. -/
def scoreDescLE (a b : ScoredHit) : Bool := b.score ≤ a.score

/-- Stable descending sort by score, app.py lines 123 and 132. -/
def sortByScoreDesc (hits : List ScoredHit) : List ScoredHit :=
  hits.mergeSort scoreDescLE

/-- The fill loop shared by both fusion phases, app.py lines 123-128 and
132-137: walk the (already sorted) hit list, stop as soon as the result
holds 6 items, append a hit iff its url is not in the seen set (the Python
set is modelled as a list with membership). -/
def fillResults : List ScoredHit → List ScoredHit → List String →
    List ScoredHit × List String
  | [], final_results, seen_urls => (final_results, seen_urls)
  | item :: rest, final_results, seen_urls =>
    if 6 ≤ final_results.length then (final_results, seen_urls)
    else if item.url ∈ seen_urls then fillResults rest final_results seen_urls
    else fillResults rest (final_results ++ [item]) (item.url :: seen_urls)

/-- Python's `max(xs, default=0)`: the maximum element, or `0` on the empty
list (app.py line 130). -/
def maxOrDefault : List Int → Int
  | [] => 0
  | x :: xs => xs.foldl max x

/-- The Result Fusion Engine, app.py lines 121-137: fill from sorted fuzzy
hits, then backfill from sorted semantic hits when the list is short or the
best fuzzy score is below 80. -/
def searchResults (fuzzy_hits semantic_hits : List ScoredHit) :
    List ScoredHit :=
  let p1 := fillResults (sortByScoreDesc fuzzy_hits) [] []
  let max_fuzzy_score := maxOrDefault (fuzzy_hits.map (·.score))
  if p1.1.length < 6 ∨ max_fuzzy_score < 80 then
    (fillResults (sortByScoreDesc semantic_hits) p1.1 p1.2).1
  else
    p1.1

/-- Errors surfaced by the endpoints: HTTP 400 (missing/empty input) and
HTTP 404 (unknown tenant). -/
inductive ApiError where
  | invalidInput
  | notFound
deriving DecidableEq, Repr

/-- The `/search` endpoint, app.py lines 65-139. The per-tenant store is a
map from tenant id to its corpus (`none` = no uploaded corpus); the semantic
matcher is a function of tenant id and lowercased query. Missing query
parameters are `none`; `request.args.get("query", "")` defaults to `""`. -/
def searchEndpoint (store : String → Option (List Doc))
    (lex : String → String → Int)
    (semanticSearch : String → String → List SemResult)
    (tenant_id : Option String) (query_param : Option String) :
    Except ApiError (List ScoredHit) :=
  let query := (query_param.getD "").toLower
  if tenant_id.getD "" = "" ∨ query = "" then
    .error .invalidInput
  else
    let tid := tenant_id.getD ""
    match store tid with
    | none => .error .notFound
    | some docs =>
        .ok (searchResults (fuzzyRank lex query docs)
              (mkSemanticHits (semanticSearch tid query)))

/-- An upload payload document: `content` is required (`d["content"]`),
title and url are optional with defaults (app.py lines 56-57). -/
structure UploadDoc where
  content : String
  title : Option String
  url : Option String
deriving DecidableEq, Repr

/-- Metadata defaulting applied at upload, app.py line 57. -/
def storedDoc (d : UploadDoc) : Doc :=
  { title := d.title.getD "Untitled", url := d.url.getD "", content := d.content }

/-- The `/upload` endpoint, app.py lines 47-62: on missing tenant id or
empty docs list return InvalidInput and leave the store untouched; otherwise
replace the tenant's corpus and report the number of docs added. -/
def uploadEndpoint (store : String → Option (List Doc))
    (tenant_id : Option String) (docs : Option (List UploadDoc)) :
    Except ApiError Nat × (String → Option (List Doc)) :=
  let ds := docs.getD []
  if tenant_id.getD "" = "" ∨ ds = [] then
    (.error .invalidInput, store)
  else
    (.ok ds.length,
     fun t => if t = tenant_id.getD "" then some (ds.map storedDoc) else store t)

/-- Modelled from the spec (§4.2 step 4 / §8): the zero-fuzzy-hit result as
the spec words it — semantic hits sorted by score descending, deduplicated
by url keeping first occurrences, truncated to at most 6. Used as the
reference side of the refinement in C6. -/
def dedupByUrlFrom (seen : List String) : List ScoredHit → List ScoredHit
  | [] => []
  | h :: rest =>
    if h.url ∈ seen then dedupByUrlFrom seen rest
    else h :: dedupByUrlFrom (h.url :: seen) rest

/-- Modelled from the spec: "sort semantic hits by score descending and
append them (skipping any url already in the seen-set) until the list
reaches 6" when there are no fuzzy hits. -/
def specSemanticOnly (semantic_hits : List ScoredHit) : List ScoredHit :=
  (dedupByUrlFrom [] (sortByScoreDesc semantic_hits)).take 6

/-! ## Helper lemmas -/

/-- Dropping from a list an element that a `filterMap` function sends to
`none` does not change the `filterMap`. -/
theorem filterMap_erase_none {α β : Type} [DecidableEq α] (f : α → Option β)
    (d : α) (hf : f d = none) (l : List α) :
    l.filterMap f = (l.filter (fun e => e ≠ d)).filterMap f := by
  induction l with
  | nil => rfl
  | cons e rest ih =>
    by_cases he : e = d
    · subst he
      simp [List.filterMap_cons, hf, List.filter_cons, ih]
    · simp [List.filterMap_cons, List.filter_cons, he, ih]

/-- Kernel-evaluated fact about the one-character query used in witnesses. -/
theorem toLower_q_eq : "q".toLower = "q" := by
  unfold String.toLower String.map
  rw [String.mapAux]
  rw [dif_neg (by decide)]
  show String.mapAux Char.toLower (("q".set 0 ('q'.toLower)).next 0)
    ("q".set 0 ('q'.toLower)) = "q"
  have h1 : "q".set 0 ('q'.toLower) = "q" := by decide
  rw [h1]
  rw [String.mapAux]
  rw [dif_pos (by decide)]

/-- Master characterization of the fill loop: it appends to `final_results`
a sublist `extra` of the input whose urls are new and pairwise distinct,
pushes those urls onto the seen list, and never grows the result past 6
(nor shrinks it). -/
theorem fillResults_spec (l : List ScoredHit) :
    ∀ (acc : List ScoredHit) (seen : List String),
    ∃ extra : List ScoredHit,
      fillResults l acc seen =
        (acc ++ extra, (extra.reverse.map (·.url)) ++ seen) ∧
      extra.Sublist l ∧
      (∀ h ∈ extra, h.url ∉ seen) ∧
      (extra.map (·.url)).Nodup ∧
      acc.length + extra.length ≤ max acc.length 6 := by
  induction l with
  | nil =>
    intro acc seen
    exact ⟨[], by simp [fillResults], List.nil_sublist _, by simp, by simp,
      by simp⟩
  | cons item rest ih =>
    intro acc seen
    by_cases h6 : 6 ≤ acc.length
    · refine ⟨[], by simp [fillResults, h6], List.nil_sublist _, by simp,
        by simp, by simp⟩
    · by_cases hseen : item.url ∈ seen
      · obtain ⟨extra, heq, hsub, hns, hnd, hlen⟩ := ih acc seen
        refine ⟨extra, ?_, hsub.cons _, hns, hnd, hlen⟩
        rw [show fillResults (item :: rest) acc seen =
            fillResults rest acc seen from by simp [fillResults, h6, hseen]]
        exact heq
      · obtain ⟨extra, heq, hsub, hns, hnd, hlen⟩ :=
          ih (acc ++ [item]) (item.url :: seen)
        refine ⟨item :: extra, ?_, hsub.cons₂ _, ?_, ?_, ?_⟩
        · rw [show fillResults (item :: rest) acc seen =
              fillResults rest (acc ++ [item]) (item.url :: seen) from by
            simp [fillResults, h6, hseen]]
          rw [heq]
          simp [List.append_assoc]
        · intro h hm
          rcases List.mem_cons.mp hm with rfl | hm
          · exact hseen
          · exact fun hc => hns h hm (List.mem_cons_of_mem _ hc)
        · refine List.nodup_cons.mpr ⟨?_, hnd⟩
          intro hc
          obtain ⟨h, hh, hu⟩ := List.mem_map.mp hc
          exact hns h hh (hu ▸ List.mem_cons_self _ _)
        · simp only [List.length_append, List.length_cons, List.length_nil] at hlen ⊢
          simp only [Nat.max_def] at hlen ⊢
          split_ifs at hlen ⊢ <;> omega

/-- The fill loop never produces more than `max acc.length 6` items. -/
theorem fillResults_length_le (l : List ScoredHit) (acc : List ScoredHit)
    (seen : List String) :
    (fillResults l acc seen).1.length ≤ max acc.length 6 := by
  obtain ⟨extra, heq, -, -, -, hlen⟩ := fillResults_spec l acc seen
  rw [heq]
  simpa using hlen

/-- Every item produced by the fill loop comes from the accumulator or the
input list. -/
theorem mem_fillResults {l acc : List ScoredHit} {seen : List String}
    {h : ScoredHit} (hm : h ∈ (fillResults l acc seen).1) :
    h ∈ acc ∨ h ∈ l := by
  obtain ⟨extra, heq, hsub, -, -, -⟩ := fillResults_spec l acc seen
  rw [heq] at hm
  rcases List.mem_append.mp hm with hm | hm
  · exact Or.inl hm
  · exact Or.inr (hsub.subset hm)

/-- Let-free unfolding of `searchResults`. -/
theorem searchResults_def (fz sem : List ScoredHit) :
    searchResults fz sem =
      if (fillResults (sortByScoreDesc fz) [] []).1.length < 6 ∨
          maxOrDefault (fz.map (·.score)) < 80 then
        (fillResults (sortByScoreDesc sem)
          (fillResults (sortByScoreDesc fz) [] []).1
          (fillResults (sortByScoreDesc fz) [] []).2).1
      else (fillResults (sortByScoreDesc fz) [] []).1 := rfl

/-- Let-free unfolding of `searchEndpoint`. -/
theorem searchEndpoint_def (store : String → Option (List Doc))
    (lex : String → String → Int)
    (semanticSearch : String → String → List SemResult)
    (tenant_id query_param : Option String) :
    searchEndpoint store lex semanticSearch tenant_id query_param =
      if tenant_id.getD "" = "" ∨ (query_param.getD "").toLower = "" then
        .error .invalidInput
      else
        match store (tenant_id.getD "") with
        | none => .error .notFound
        | some docs =>
            .ok (searchResults
                  (fuzzyRank lex ((query_param.getD "").toLower) docs)
                  (mkSemanticHits (semanticSearch (tenant_id.getD "")
                    ((query_param.getD "").toLower)))) := rfl

/-- Every fuzzy hit carries source "fuzzy" and a boosted score of at
least 80: the filter admits only documents with `score ≥ 80` and no boost
branch lowers the score. -/
theorem fuzzyRank_mem_spec {lex : String → String → Int} {query : String}
    {docs : List Doc} {h : ScoredHit} (hm : h ∈ fuzzyRank lex query docs) :
    h.source = "fuzzy" ∧ 80 ≤ h.score := by
  obtain ⟨d, -, heq⟩ := List.mem_filterMap.mp hm
  unfold fuzzyHitFor at heq
  dsimp only at heq
  split at heq
  case isTrue hge =>
    injection heq with heq
    subst heq
    refine ⟨rfl, ?_⟩
    dsimp only
    split_ifs <;> omega
  case isFalse hge => cases heq

/-- A lower bound on an initial value propagates through `foldl max`. -/
theorem le_foldl_max (b : Int) :
    ∀ (xs : List Int) (init : Int), b ≤ init → b ≤ xs.foldl max init
  | [], _, h => h
  | x :: xs, init, h =>
      le_foldl_max b xs (max init x) (le_trans h (le_max_left _ _))

/-- `max(xs, default=0)` dominates any bound satisfied by all elements of a
nonempty list. -/
theorem maxOrDefault_ge (l : List Int) (b : Int) (hne : l ≠ [])
    (hall : ∀ x ∈ l, b ≤ x) : b ≤ maxOrDefault l := by
  cases l with
  | nil => exact absurd rfl hne
  | cons x xs => exact le_foldl_max b xs x (hall x (List.mem_cons_self _ _))

/-- The fusion engine never returns more than 6 items. -/
theorem searchResults_length_le (fz sem : List ScoredHit) :
    (searchResults fz sem).length ≤ 6 := by
  rw [searchResults_def]
  have h1 := fillResults_length_le (sortByScoreDesc fz) [] []
  simp only [List.length_nil, Nat.zero_max] at h1
  split
  · have h2 := fillResults_length_le (sortByScoreDesc sem)
      (fillResults (sortByScoreDesc fz) [] []).1
      (fillResults (sortByScoreDesc fz) [] []).2
    simp only [Nat.max_def] at h2
    split_ifs at h2
    all_goals omega
  · exact h1

/-- Lower bound for the fill loop: it reaches 6 items whenever the input
offers enough distinct unseen urls. -/
theorem fillResults_length_lower (l : List ScoredHit) :
    ∀ (acc : List ScoredHit) (seen : List String), acc.length ≤ 6 →
    min 6 (acc.length + ((l.map (·.url)).toFinset \ seen.toFinset).card) ≤
      (fillResults l acc seen).1.length := by
  induction l with
  | nil =>
    intro acc seen hle
    simp only [fillResults, List.map_nil, List.toFinset_nil,
      Finset.empty_sdiff, Finset.card_empty, Nat.add_zero]
    omega
  | cons item rest ih =>
    intro acc seen hle
    by_cases h6 : 6 ≤ acc.length
    · rw [show fillResults (item :: rest) acc seen = (acc, seen) from by
        simp [fillResults, h6]]
      simp only
      omega
    · by_cases hseen : item.url ∈ seen
      · rw [show fillResults (item :: rest) acc seen =
            fillResults rest acc seen from by simp [fillResults, h6, hseen]]
        have hins : ((item :: rest).map (·.url)).toFinset \ seen.toFinset =
            ((rest.map (·.url)).toFinset \ seen.toFinset) := by
          simp only [List.map_cons, List.toFinset_cons]
          exact Finset.insert_sdiff_of_mem _ (List.mem_toFinset.mpr hseen)
        rw [hins]
        exact ih acc seen hle
      · rw [show fillResults (item :: rest) acc seen =
            fillResults rest (acc ++ [item]) (item.url :: seen) from by
          simp [fillResults, h6, hseen]]
        have hrec := ih (acc ++ [item]) (item.url :: seen)
          (by simp only [List.length_append, List.length_cons,
                List.length_nil]; omega)
        have hcard : (((item :: rest).map (·.url)).toFinset \
            seen.toFinset).card ≤
            ((rest.map (·.url)).toFinset \
              (item.url :: seen).toFinset).card + 1 := by
          have hsub : ((item :: rest).map (·.url)).toFinset \ seen.toFinset ⊆
              insert item.url ((rest.map (·.url)).toFinset \
                (item.url :: seen).toFinset) := by
            intro x hx
            simp only [List.map_cons, List.toFinset_cons, Finset.mem_sdiff,
              Finset.mem_insert, List.toFinset_cons] at hx ⊢
            rcases hx with ⟨hx1 | hx1, hx2⟩
            · exact Or.inl hx1
            · by_cases hxu : x = item.url
              · exact Or.inl hxu
              · exact Or.inr ⟨hx1, by simp [hxu, hx2]⟩
          calc (((item :: rest).map (·.url)).toFinset \ seen.toFinset).card
              ≤ (insert item.url ((rest.map (·.url)).toFinset \
                  (item.url :: seen).toFinset)).card :=
                Finset.card_le_card hsub
            _ ≤ ((rest.map (·.url)).toFinset \
                  (item.url :: seen).toFinset).card + 1 :=
                Finset.card_insert_le _ _
        refine le_trans ?_ hrec
        simp only [List.length_append, List.length_cons, List.length_nil]
        omega

/-- When at least one fuzzy hit exists, the best fuzzy score is at least
80 (each surviving document scored at least 80 and boosting never lowers
that). -/
theorem fuzzyRank_maxOrDefault_ge (lex : String → String → Int)
    (query : String) (docs : List Doc)
    (hne : fuzzyRank lex query docs ≠ []) :
    80 ≤ maxOrDefault ((fuzzyRank lex query docs).map (·.score)) := by
  refine maxOrDefault_ge _ _ (by simpa using hne) ?_
  intro x hx
  obtain ⟨h, hh, rfl⟩ := List.mem_map.mp hx
  exact (fuzzyRank_mem_spec hh).2

/-- The fill loop started below the cap is exactly "dedup by url, then
truncate to the room left". -/
theorem fillResults_eq_take_dedup :
    ∀ (l : List ScoredHit) (acc : List ScoredHit) (seen : List String),
    acc.length ≤ 6 →
    (fillResults l acc seen).1 =
      acc ++ (dedupByUrlFrom seen l).take (6 - acc.length) := by
  intro l
  induction l with
  | nil =>
    intro acc seen hle
    simp [fillResults, dedupByUrlFrom]
  | cons item rest ih =>
    intro acc seen hle
    by_cases h6 : 6 ≤ acc.length
    · have h0 : 6 - acc.length = 0 := by omega
      rw [show fillResults (item :: rest) acc seen = (acc, seen) from by
        simp [fillResults, h6]]
      simp [h0]
    · by_cases hseen : item.url ∈ seen
      · rw [show fillResults (item :: rest) acc seen =
            fillResults rest acc seen from by simp [fillResults, h6, hseen]]
        rw [ih acc seen hle]
        simp [dedupByUrlFrom, hseen]
      · obtain ⟨m, hm⟩ : ∃ m, 6 - acc.length = m + 1 :=
          ⟨6 - acc.length - 1, by omega⟩
        rw [show fillResults (item :: rest) acc seen =
            fillResults rest (acc ++ [item]) (item.url :: seen) from by
          simp [fillResults, h6, hseen]]
        rw [ih (acc ++ [item]) (item.url :: seen)
          (by simp only [List.length_append, List.length_cons,
                List.length_nil]; omega)]
        have hm' : 6 - (acc ++ [item]).length = m := by
          simp only [List.length_append, List.length_cons, List.length_nil]
          omega
        rw [hm']
        simp only [dedupByUrlFrom, hseen, if_neg, ite_false]
        rw [hm, List.take_succ_cons]
        simp [List.append_assoc]

/-- Urls already in the seen list survive the fill loop. -/
theorem fillResults_seen_monotone (l : List ScoredHit) (acc : List ScoredHit)
    (seen : List String) {u : String} (hu : u ∈ seen) :
    u ∈ (fillResults l acc seen).2 := by
  obtain ⟨extra, heq, -, -, -, -⟩ := fillResults_spec l acc seen
  rw [heq]
  exact List.mem_append_right _ hu

/-- If the fill loop ends below the cap it has consumed its whole input:
every input url ends up in the seen list (either it was already seen or its
item was appended). -/
theorem fillResults_seen_complete :
    ∀ (l : List ScoredHit) (acc : List ScoredHit) (seen : List String),
    (fillResults l acc seen).1.length < 6 →
    ∀ h ∈ l, h.url ∈ (fillResults l acc seen).2 := by
  intro l
  induction l with
  | nil =>
    intro acc seen _ h hm
    cases hm
  | cons item rest ih =>
    intro acc seen hlen h hm
    by_cases h6 : 6 ≤ acc.length
    · exfalso
      rw [show fillResults (item :: rest) acc seen = (acc, seen) from by
        simp [fillResults, h6]] at hlen
      simp only at hlen
      omega
    · by_cases hseen : item.url ∈ seen
      · have hstep : fillResults (item :: rest) acc seen =
            fillResults rest acc seen := by simp [fillResults, h6, hseen]
        rw [hstep] at hlen ⊢
        rcases List.mem_cons.mp hm with rfl | hm'
        · exact fillResults_seen_monotone rest acc seen hseen
        · exact ih acc seen hlen h hm'
      · have hstep : fillResults (item :: rest) acc seen =
            fillResults rest (acc ++ [item]) (item.url :: seen) := by
          simp [fillResults, h6, hseen]
        rw [hstep] at hlen ⊢
        rcases List.mem_cons.mp hm with rfl | hm'
        · exact fillResults_seen_monotone rest _ _ (List.mem_cons_self _ _)
        · exact ih _ _ hlen h hm'

/-- Every entry of the fusion result comes from one of the two hit lists. -/
theorem mem_searchResults {fz sem : List ScoredHit} {h : ScoredHit}
    (hm : h ∈ searchResults fz sem) : h ∈ fz ∨ h ∈ sem := by
  rw [searchResults_def] at hm
  split at hm
  · rcases mem_fillResults hm with hc | hc
    · rcases mem_fillResults hc with hc' | hc'
      · cases hc'
      · exact Or.inl (by simpa [sortByScoreDesc] using hc')
    · exact Or.inr (by simpa [sortByScoreDesc] using hc)
  · rcases mem_fillResults hm with hc | hc
    · cases hc
    · exact Or.inl (by simpa [sortByScoreDesc] using hc)

/-! ## Claims -/

/-- C3: every Result List returned by the search endpoint has length at
most 6, for every store, scorer, semantic matcher, tenant and query. -/
theorem search_result_length_le_six (store : String → Option (List Doc))
    (lex : String → String → Int)
    (semanticSearch : String → String → List SemResult)
    (tenant_id query_param : Option String) (res : List ScoredHit)
    (hok : searchEndpoint store lex semanticSearch tenant_id query_param =
      .ok res) :
    res.length ≤ 6 := by
  rw [searchEndpoint_def] at hok
  split at hok
  · cases hok
  · split at hok
    · cases hok
    · injection hok with hok
      subst hok
      exact searchResults_length_le _ _

/-- Witness for C3: a tenant with an empty corpus and an empty semantic
matcher yields the empty Result List, of length at most 6. -/
theorem search_result_length_le_six_witness :
    searchEndpoint (fun _ => some []) (fun _ _ => (0 : Int)) (fun _ _ => [])
        (some "t") (some "q") = .ok [] ∧ ([] : List ScoredHit).length ≤ 6 := by
  have hok : searchEndpoint (fun _ => some []) (fun _ _ => (0 : Int))
      (fun _ _ => []) (some "t") (some "q") = .ok [] := by
    rw [searchEndpoint_def]
    rw [if_neg (by simp [toLower_q_eq])]
    show Except.ok (searchResults (fuzzyRank _ _ []) (mkSemanticHits [])) =
      Except.ok []
    simp [searchResults_def, sortByScoreDesc, fillResults, fuzzyRank,
      mkSemanticHits, maxOrDefault]
  exact ⟨hok, search_result_length_le_six _ _ _ _ _ _ hok⟩

/-- C1: for every document surviving the fuzzy filter
(`max score_title score_content ≥ 80`), a fuzzy hit is emitted and its
boosted score follows the priority cascade: `score_title = 100` gives
exactly 200 regardless of the content score; else `score_content = 100`
gives exactly 180; else `score_title > score_content` gives `score + 50`
with `score = max score_title score_content`; else the score is unchanged. -/
theorem boost_cascade (lex : String → String → Int) (query : String)
    (docs : List Doc) (d : Doc) (hd : d ∈ docs)
    (hsurv : 80 ≤ max (lex query d.title.toLower) (lex query d.content.toLower)) :
    ∃ h : ScoredHit, fuzzyHitFor lex query d = some h ∧
      h ∈ fuzzyRank lex query docs ∧
      (lex query d.title.toLower = 100 → h.score = 200) ∧
      (lex query d.title.toLower ≠ 100 → lex query d.content.toLower = 100 →
        h.score = 180) ∧
      (lex query d.title.toLower ≠ 100 → lex query d.content.toLower ≠ 100 →
        lex query d.content.toLower < lex query d.title.toLower →
        h.score = max (lex query d.title.toLower) (lex query d.content.toLower) + 50) ∧
      (lex query d.title.toLower ≠ 100 → lex query d.content.toLower ≠ 100 →
        ¬ lex query d.content.toLower < lex query d.title.toLower →
        h.score = max (lex query d.title.toLower) (lex query d.content.toLower)) := by
  have hf : fuzzyHitFor lex query d =
      some { title := d.title, url := d.url, snippet := d.content.take 200,
             score :=
               if lex query d.title.toLower = 100 then 200
               else if lex query d.content.toLower = 100 then 180
               else if lex query d.content.toLower < lex query d.title.toLower then
                 max (lex query d.title.toLower) (lex query d.content.toLower) + 50
               else max (lex query d.title.toLower) (lex query d.content.toLower),
             source := "fuzzy" } := by
    unfold fuzzyHitFor
    rw [if_pos hsurv]
  refine ⟨_, hf, List.mem_filterMap.mpr ⟨d, hd, hf⟩, ?_, ?_, ?_, ?_⟩
  · intro ht; simp [ht]
  · intro ht hc; simp [ht, hc]
  · intro ht hc hlt; simp [ht, hc, hlt]
  · intro ht hc hlt; simp [ht, hc, hlt]

/-- Witness for C1 at a concrete input: a constant lexical scorer returning
100 makes the title score exactly 100, so the emitted hit scores 200. -/
theorem boost_cascade_witness :
    ∃ h : ScoredHit,
      fuzzyHitFor (fun _ _ => (100 : Int)) "q" ⟨"t", "u", "c"⟩ = some h ∧
      h ∈ fuzzyRank (fun _ _ => (100 : Int)) "q" [⟨"t", "u", "c"⟩] ∧
      h.score = 200 := by
  obtain ⟨h, h1, h2, h3, -⟩ :=
    boost_cascade (fun _ _ => (100 : Int)) "q" [⟨"t", "u", "c"⟩] ⟨"t", "u", "c"⟩
      (by simp) (by decide)
  exact ⟨h, h1, h2, h3 rfl⟩

/-- C7: a document whose lexical score `max score_title score_content` is
exactly 80 is retained and emitted as a fuzzy hit, while a document whose
score is below 80 contributes nothing: its per-document result is `none`
and removing it from any corpus leaves the fuzzy output unchanged. -/
theorem fuzzy_threshold_eighty (lex : String → String → Int) (query : String)
    (d : Doc) :
    (max (lex query d.title.toLower) (lex query d.content.toLower) = 80 →
      ∃ h : ScoredHit, fuzzyHitFor lex query d = some h ∧ h.source = "fuzzy") ∧
    (max (lex query d.title.toLower) (lex query d.content.toLower) < 80 →
      fuzzyHitFor lex query d = none ∧
      ∀ docs : List Doc,
        fuzzyRank lex query docs =
          fuzzyRank lex query (docs.filter (fun e => e ≠ d))) := by
  constructor
  · intro h80
    have hf : fuzzyHitFor lex query d =
        some { title := d.title, url := d.url, snippet := d.content.take 200,
               score :=
                 if lex query d.title.toLower = 100 then 200
                 else if lex query d.content.toLower = 100 then 180
                 else if lex query d.content.toLower < lex query d.title.toLower then
                   max (lex query d.title.toLower) (lex query d.content.toLower) + 50
                 else max (lex query d.title.toLower) (lex query d.content.toLower),
               source := "fuzzy" } := by
      unfold fuzzyHitFor
      rw [if_pos (le_of_eq h80.symm)]
    exact ⟨_, hf, rfl⟩
  · intro hlt
    have hnone : fuzzyHitFor lex query d = none := by
      unfold fuzzyHitFor
      rw [if_neg (by omega)]
    exact ⟨hnone, fun docs => filterMap_erase_none _ d hnone docs⟩

/-- Witness for C7: a constant scorer of 80 retains the document, a
constant scorer of 0 discards it. -/
theorem fuzzy_threshold_eighty_witness :
    (∃ h : ScoredHit,
      fuzzyHitFor (fun _ _ => (80 : Int)) "q" ⟨"t", "u", "c"⟩ = some h ∧
      h.source = "fuzzy") ∧
    fuzzyHitFor (fun _ _ => (0 : Int)) "q" ⟨"t", "u", "c"⟩ = none := by
  constructor
  · exact (fuzzy_threshold_eighty (fun _ _ => (80 : Int)) "q" ⟨"t", "u", "c"⟩).1
      (by decide)
  · exact ((fuzzy_threshold_eighty (fun _ _ => (0 : Int)) "q" ⟨"t", "u", "c"⟩).2
      (by decide)).1

/-- C8: searching a tenant with no uploaded corpus (the store has no entry
for it) returns the NotFound error, not an empty result list. -/
theorem search_unknown_tenant (store : String → Option (List Doc))
    (lex : String → String → Int)
    (semanticSearch : String → String → List SemResult)
    (tid q : String) (htid : tid ≠ "") (hq : q.toLower ≠ "")
    (hstore : store tid = none) :
    searchEndpoint store lex semanticSearch (some tid) (some q) =
      .error .notFound := by
  unfold searchEndpoint
  rw [if_neg (by simp [htid, hq])]
  simp [hstore]

/-- Witness for C8: an empty store makes tenant "t" unknown; the query "q"
stays nonempty after lowercasing. -/
theorem search_unknown_tenant_witness :
    searchEndpoint (fun _ => none) (fun _ _ => (0 : Int)) (fun _ _ => [])
      (some "t") (some "q") = .error .notFound := by
  refine search_unknown_tenant _ _ _ "t" "q" (by decide) ?_ rfl
  rw [toLower_q_eq]
  decide

/-- C9: an upload with a missing tenant id or an empty docs list returns
the InvalidInput error and leaves the store exactly as it was. -/
theorem upload_invalid_keeps_store (store : String → Option (List Doc))
    (tenant_id : Option String) (docs : Option (List UploadDoc))
    (h : tenant_id.getD "" = "" ∨ docs.getD [] = []) :
    uploadEndpoint store tenant_id docs = (.error .invalidInput, store) := by
  unfold uploadEndpoint
  rw [if_pos h]

/-- The sort comparison is transitive. -/
theorem scoreDescLE_trans : ∀ (a b c : ScoredHit),
    scoreDescLE a b → scoreDescLE b c → scoreDescLE a c := by
  intro a b c
  simp only [scoreDescLE, decide_eq_true_eq]
  omega

/-- The sort comparison is total. -/
theorem scoreDescLE_total : ∀ (a b : ScoredHit),
    scoreDescLE a b || scoreDescLE b a := by
  intro a b
  simp only [scoreDescLE, Bool.or_eq_true, decide_eq_true_eq]
  omega

/-- The sorted fuzzy/semantic lists are in weakly descending score order. -/
theorem sortByScoreDesc_sorted (l : List ScoredHit) :
    (sortByScoreDesc l).Pairwise (fun a b => b.score ≤ a.score) := by
  have h := List.sorted_mergeSort scoreDescLE_trans scoreDescLE_total l
  exact h.imp (by
    intro a b hb
    simpa [scoreDescLE, decide_eq_true_eq] using hb)

/-- Stability of the descending sort: the elements of any fixed score keep
their original relative order, so the sorted list filtered to one score
level equals the unsorted list filtered to that level. -/
theorem sortByScoreDesc_filter_score (l : List ScoredHit) (k : Int) :
    (sortByScoreDesc l).filter (fun h => decide (h.score = k)) =
      l.filter (fun h => decide (h.score = k)) := by
  have hcp : (l.filter (fun h => decide (h.score = k))).Pairwise
      (fun a b => scoreDescLE a b = true) := by
    refine List.pairwise_of_forall_mem_list ?_
    intro a ha b hb
    have ha' := List.of_mem_filter ha
    have hb' := List.of_mem_filter hb
    simp only [decide_eq_true_eq] at ha' hb'
    simp only [scoreDescLE, decide_eq_true_eq]
    omega
  have h1 : (l.filter (fun h => decide (h.score = k))).Sublist
      (sortByScoreDesc l) :=
    List.sublist_mergeSort scoreDescLE_trans scoreDescLE_total hcp
      (List.filter_sublist l)
  have h2 : (l.filter (fun h => decide (h.score = k))).Sublist
      ((sortByScoreDesc l).filter (fun h => decide (h.score = k))) := by
    have h3 := h1.filter (fun h => decide (h.score = k))
    simp only [List.filter_filter, Bool.and_self] at h3
    exact h3
  have hlen : ((sortByScoreDesc l).filter
      (fun h => decide (h.score = k))).length =
      (l.filter (fun h => decide (h.score = k))).length :=
    ((List.mergeSort_perm l scoreDescLE).filter _).length_eq
  exact (h2.eq_of_length hlen.symm).symm

/-- Every semantic hit carries source "semantic". -/
theorem mkSemanticHits_mem_source {semres : List SemResult} {h : ScoredHit}
    (hm : h ∈ mkSemanticHits semres) : h.source = "semantic" := by
  obtain ⟨r, -, rfl⟩ := List.mem_map.mp hm
  rfl

/-- C2: the Result List splits as fuzzy-sourced entries followed by
semantic-sourced entries, each block in weakly descending score order, and
ties among the kept fuzzy entries appear in corpus scan order (the filter
of the fuzzy block at any score level is a sublist of the Fuzzy Ranker
output at that level). -/
theorem result_ordering (lex : String → String → Int) (query : String)
    (docs : List Doc) (semres : List SemResult) :
    ∃ r1 r2 : List ScoredHit,
      searchResults (fuzzyRank lex query docs) (mkSemanticHits semres) =
        r1 ++ r2 ∧
      (∀ h ∈ r1, h.source = "fuzzy") ∧
      (∀ h ∈ r2, h.source = "semantic") ∧
      r1.Pairwise (fun a b => b.score ≤ a.score) ∧
      r2.Pairwise (fun a b => b.score ≤ a.score) ∧
      (∀ k : Int, (r1.filter (fun h => decide (h.score = k))).Sublist
        ((fuzzyRank lex query docs).filter (fun h => decide (h.score = k)))) := by
  obtain ⟨e1, heq1, hsub1, -, -, -⟩ :=
    fillResults_spec (sortByScoreDesc (fuzzyRank lex query docs)) [] []
  have hsrc1 : ∀ h ∈ e1, h.source = "fuzzy" := by
    intro h hh
    have : h ∈ fuzzyRank lex query docs := by
      simpa [sortByScoreDesc] using hsub1.subset hh
    exact (fuzzyRank_mem_spec this).1
  have hpw1 : e1.Pairwise (fun a b => b.score ≤ a.score) :=
    List.Pairwise.sublist hsub1 (sortByScoreDesc_sorted _)
  have hstable : ∀ k : Int,
      (e1.filter (fun h => decide (h.score = k))).Sublist
        ((fuzzyRank lex query docs).filter (fun h => decide (h.score = k))) := by
    intro k
    have h1 := hsub1.filter (fun h => decide (h.score = k))
    rwa [sortByScoreDesc_filter_score] at h1
  rw [searchResults_def]
  split
  · obtain ⟨e2, heq2, hsub2, -, -, -⟩ :=
      fillResults_spec (sortByScoreDesc (mkSemanticHits semres))
        (fillResults (sortByScoreDesc (fuzzyRank lex query docs)) [] []).1
        (fillResults (sortByScoreDesc (fuzzyRank lex query docs)) [] []).2
    refine ⟨e1, e2, ?_, hsrc1, ?_, hpw1, ?_, hstable⟩
    · rw [heq2, heq1]
      simp
    · intro h hh
      have : h ∈ mkSemanticHits semres := by
        simpa [sortByScoreDesc] using hsub2.subset hh
      exact mkSemanticHits_mem_source this
    · exact List.Pairwise.sublist hsub2 (sortByScoreDesc_sorted _)
  · refine ⟨e1, [], ?_, hsrc1, by simp, hpw1, List.Pairwise.nil, hstable⟩
    rw [heq1]
    simp

/-- Witness for C2 at a concrete corpus and semantic result list. -/
theorem result_ordering_witness :
    ∃ r1 r2 : List ScoredHit,
      searchResults (fuzzyRank (fun _ _ => (100 : Int)) "q" [⟨"t", "u", "c"⟩])
        (mkSemanticHits [⟨some "t2", some "u2", "c2", 1⟩]) = r1 ++ r2 ∧
      (∀ h ∈ r1, h.source = "fuzzy") ∧
      (∀ h ∈ r2, h.source = "semantic") ∧
      r1.Pairwise (fun a b => b.score ≤ a.score) ∧
      r2.Pairwise (fun a b => b.score ≤ a.score) ∧
      (∀ k : Int, (r1.filter (fun h => decide (h.score = k))).Sublist
        ((fuzzyRank (fun _ _ => (100 : Int)) "q" [⟨"t", "u", "c"⟩]).filter
          (fun h => decide (h.score = k)))) :=
  result_ordering (fun _ _ => (100 : Int)) "q" [⟨"t", "u", "c"⟩]
    [⟨some "t2", some "u2", "c2", 1⟩]

/-- C5: when the fuzzy hits cover at least 6 distinct urls, the fill phase
reaches 6 items and the best fuzzy score is at least 80, so the semantic
backfill never runs: the Result List contains no semantic-sourced entry. -/
theorem fuzzy_six_urls_no_semantic (lex : String → String → Int)
    (query : String) (docs : List Doc) (sem : List ScoredHit)
    (h6 : 6 ≤ ((fuzzyRank lex query docs).map (·.url)).toFinset.card) :
    ∀ h ∈ searchResults (fuzzyRank lex query docs) sem,
      h.source ≠ "semantic" := by
  have hperm : List.Perm (sortByScoreDesc (fuzzyRank lex query docs))
      (fuzzyRank lex query docs) := List.mergeSort_perm _ _
  have hts : (((sortByScoreDesc (fuzzyRank lex query docs)).map
      (·.url)).toFinset) = ((fuzzyRank lex query docs).map (·.url)).toFinset :=
    List.toFinset_eq_of_perm _ _ (hperm.map _)
  have hlow := fillResults_length_lower
    (sortByScoreDesc (fuzzyRank lex query docs)) [] [] (by simp)
  rw [hts] at hlow
  simp only [List.length_nil, List.toFinset_nil, Finset.sdiff_empty,
    Nat.zero_add] at hlow
  have hub := fillResults_length_le
    (sortByScoreDesc (fuzzyRank lex query docs)) [] []
  simp only [List.length_nil, Nat.zero_max] at hub
  have hlen6 : (fillResults (sortByScoreDesc (fuzzyRank lex query docs))
      [] []).1.length = 6 := by omega
  have hne : fuzzyRank lex query docs ≠ [] := by
    intro h0
    rw [h0] at h6
    simp at h6
  have hmax : 80 ≤ maxOrDefault ((fuzzyRank lex query docs).map (·.score)) := by
    refine maxOrDefault_ge _ _ (by simpa using hne) ?_
    intro x hx
    obtain ⟨h, hh, rfl⟩ := List.mem_map.mp hx
    exact (fuzzyRank_mem_spec hh).2
  intro h hm
  rw [searchResults_def] at hm
  rw [if_neg (by push_neg; exact ⟨by omega, by omega⟩)] at hm
  rcases mem_fillResults hm with hc | hc
  · cases hc
  · have hfz : h ∈ fuzzyRank lex query docs := by
      simpa [sortByScoreDesc] using hc
    rw [(fuzzyRank_mem_spec hfz).1]
    decide

/-- Witness for C5: six documents with six distinct urls, each scoring 100,
leave no room for semantic entries. -/
theorem fuzzy_six_urls_no_semantic_witness :
    6 ≤ ((fuzzyRank (fun _ _ => (100 : Int)) "q"
        [⟨"t1", "u1", "c"⟩, ⟨"t2", "u2", "c"⟩, ⟨"t3", "u3", "c"⟩,
         ⟨"t4", "u4", "c"⟩, ⟨"t5", "u5", "c"⟩, ⟨"t6", "u6", "c"⟩]).map
        (·.url)).toFinset.card ∧
    ∀ h ∈ searchResults (fuzzyRank (fun _ _ => (100 : Int)) "q"
        [⟨"t1", "u1", "c"⟩, ⟨"t2", "u2", "c"⟩, ⟨"t3", "u3", "c"⟩,
         ⟨"t4", "u4", "c"⟩, ⟨"t5", "u5", "c"⟩, ⟨"t6", "u6", "c"⟩]) [],
      h.source ≠ "semantic" :=
  ⟨by decide, fun h hm =>
    fuzzy_six_urls_no_semantic (fun _ _ => (100 : Int)) "q"
      [⟨"t1", "u1", "c"⟩, ⟨"t2", "u2", "c"⟩, ⟨"t3", "u3", "c"⟩,
       ⟨"t4", "u4", "c"⟩, ⟨"t5", "u5", "c"⟩, ⟨"t6", "u6", "c"⟩] []
      (by decide) h hm⟩

/-- The fusion result never repeats a url, whatever the two hit lists are. -/
theorem searchResults_urls_nodup (fz sem : List ScoredHit) :
    ((searchResults fz sem).map (·.url)).Nodup := by
  obtain ⟨e1, heq1, hsub1, hns1, hnd1, hlen1⟩ :=
    fillResults_spec (sortByScoreDesc fz) [] []
  rw [searchResults_def]
  split
  · obtain ⟨e2, heq2, hsub2, hns2, hnd2, hlen2⟩ :=
      fillResults_spec (sortByScoreDesc sem)
        (fillResults (sortByScoreDesc fz) [] []).1
        (fillResults (sortByScoreDesc fz) [] []).2
    rw [heq2, heq1]
    simp only [List.nil_append, List.append_nil]
    rw [List.map_append, List.nodup_append]
    refine ⟨hnd1, hnd2, ?_⟩
    intro a ha1 ha2
    obtain ⟨h2, hh2, rfl⟩ := List.mem_map.mp ha2
    apply hns2 h2 hh2
    rw [heq1]
    simp only [List.nil_append, List.append_nil, List.map_reverse,
      List.mem_reverse]
    exact ha1
  · rw [heq1]
    simpa using hnd1

/-- C4: the Result List of the search pipeline contains no two entries with
the same url (empty urls included, since the url is a plain string key),
and the fuzzy entry is the one kept: a semantic-sourced entry never carries
the url of any fuzzy hit (the backfill only runs after the fill phase has
consumed every fuzzy hit, whose urls are then all in the seen set, so the
semantic duplicate is skipped); consequently any result entry whose url is
covered by a fuzzy hit has source "fuzzy". -/
theorem result_urls_unique (lex : String → String → Int) (query : String)
    (docs : List Doc) (semres : List SemResult) :
    ((searchResults (fuzzyRank lex query docs)
      (mkSemanticHits semres)).map (·.url)).Nodup ∧
    (∀ hs ∈ searchResults (fuzzyRank lex query docs) (mkSemanticHits semres),
      hs.source = "semantic" →
      hs.url ∉ (fuzzyRank lex query docs).map (·.url)) ∧
    (∀ h ∈ searchResults (fuzzyRank lex query docs) (mkSemanticHits semres),
      h.url ∈ (fuzzyRank lex query docs).map (·.url) →
      h.source = "fuzzy") := by
  have hfuzzy_of_p1 : ∀ h ∈ (fillResults
      (sortByScoreDesc (fuzzyRank lex query docs)) [] []).1,
      h.source = "fuzzy" := by
    intro h hh
    rcases mem_fillResults hh with hc | hc
    · cases hc
    · exact (fuzzyRank_mem_spec (by simpa [sortByScoreDesc] using hc)).1
  have key : ∀ hs ∈ searchResults (fuzzyRank lex query docs)
      (mkSemanticHits semres), hs.source = "semantic" →
      hs.url ∉ (fuzzyRank lex query docs).map (·.url) := by
    intro hs hms hss hurl
    obtain ⟨hf, hhf, hueq⟩ := List.mem_map.mp hurl
    rw [searchResults_def] at hms
    split at hms
    case isTrue hcond =>
      obtain ⟨e2, heq2, -, hns2, -, -⟩ :=
        fillResults_spec (sortByScoreDesc (mkSemanticHits semres))
          (fillResults (sortByScoreDesc (fuzzyRank lex query docs)) [] []).1
          (fillResults (sortByScoreDesc (fuzzyRank lex query docs)) [] []).2
      rw [heq2] at hms
      rcases List.mem_append.mp hms with hc | hc
      · rw [hfuzzy_of_p1 hs hc] at hss
        exact absurd hss (by decide)
      · rcases hcond with hlen | hmax
        · have hcomp := fillResults_seen_complete
            (sortByScoreDesc (fuzzyRank lex query docs)) [] [] hlen hf
            (by simpa [sortByScoreDesc] using hhf)
          exact hns2 hs hc (hueq ▸ hcomp)
        · by_cases hfz : fuzzyRank lex query docs = []
          · rw [hfz] at hhf
            cases hhf
          · have hge := fuzzyRank_maxOrDefault_ge lex query docs hfz
            omega
    case isFalse hcond =>
      rw [hfuzzy_of_p1 hs hms] at hss
      exact absurd hss (by decide)
  refine ⟨searchResults_urls_nodup _ _, key, ?_⟩
  intro h hm hurl
  rcases mem_searchResults hm with hc | hc
  · exact (fuzzyRank_mem_spec hc).1
  · exact absurd hurl (key h hm (mkSemanticHits_mem_source hc))

/-- Witness for C4 at a concrete corpus and semantic result list sharing
the url "u". -/
theorem result_urls_unique_witness :
    ((searchResults (fuzzyRank (fun _ _ => (100 : Int)) "q" [⟨"t", "u", "c"⟩])
      (mkSemanticHits [⟨some "t2", some "u", "c2", 1⟩])).map (·.url)).Nodup ∧
    (∀ hs ∈ searchResults (fuzzyRank (fun _ _ => (100 : Int)) "q"
        [⟨"t", "u", "c"⟩]) (mkSemanticHits [⟨some "t2", some "u", "c2", 1⟩]),
      hs.source = "semantic" →
      hs.url ∉ (fuzzyRank (fun _ _ => (100 : Int)) "q"
        [⟨"t", "u", "c"⟩]).map (·.url)) ∧
    (∀ h ∈ searchResults (fuzzyRank (fun _ _ => (100 : Int)) "q"
        [⟨"t", "u", "c"⟩]) (mkSemanticHits [⟨some "t2", some "u", "c2", 1⟩]),
      h.url ∈ (fuzzyRank (fun _ _ => (100 : Int)) "q"
        [⟨"t", "u", "c"⟩]).map (·.url) →
      h.source = "fuzzy") :=
  result_urls_unique (fun _ _ => (100 : Int)) "q" [⟨"t", "u", "c"⟩]
    [⟨some "t2", some "u", "c2", 1⟩]

/-- Witness for C9: uploading an empty docs list for tenant "t" errors and
keeps the (empty) store unchanged. -/
theorem upload_invalid_keeps_store_witness :
    uploadEndpoint (fun _ => none) (some "t") (some []) =
      (.error .invalidInput, fun _ => none) :=
  upload_invalid_keeps_store (fun _ => none) (some "t") (some [])
    (Or.inr rfl)

/-- C6: when the Fuzzy Ranker produces zero hits, the Result List is built
entirely from the semantic hits — sorted by score descending, deduplicated
by url, truncated to at most 6 — exactly the spec's description
`specSemanticOnly`. -/
theorem zero_fuzzy_semantic_only (lex : String → String → Int)
    (query : String) (docs : List Doc) (semres : List SemResult)
    (hz : fuzzyRank lex query docs = []) :
    searchResults (fuzzyRank lex query docs) (mkSemanticHits semres) =
      specSemanticOnly (mkSemanticHits semres) := by
  rw [searchResults_def, hz]
  have h0 : sortByScoreDesc ([] : List ScoredHit) = [] := by
    simp [sortByScoreDesc]
  rw [h0]
  rw [if_pos (by simp [fillResults])]
  rw [fillResults_eq_take_dedup _ _ _ (by simp [fillResults])]
  simp [fillResults, specSemanticOnly]

/-- Witness for C6: an empty corpus yields zero fuzzy hits, and the result
equals the spec's semantic-only construction. -/
theorem zero_fuzzy_semantic_only_witness :
    fuzzyRank (fun _ _ => (0 : Int)) "q" [] = [] ∧
    searchResults (fuzzyRank (fun _ _ => (0 : Int)) "q" [])
        (mkSemanticHits [⟨some "t2", some "u2", "c2", 1⟩]) =
      specSemanticOnly (mkSemanticHits [⟨some "t2", some "u2", "c2", 1⟩]) :=
  ⟨rfl, zero_fuzzy_semantic_only (fun _ _ => (0 : Int)) "q" []
    [⟨some "t2", some "u2", "c2", 1⟩] rfl⟩

/-- C10: with lexical scores in [0,100], boosting never decreases a score
and every emitted fuzzy hit scores within [80, 200]; a nonempty fuzzy hit
list therefore has best score at least 80, so the `max_fuzzy_score < 80`
disjunct is redundant and the semantic backfill runs exactly when the fill
phase produced fewer than 6 items. -/
theorem boost_monotone_backfill (lex : String → String → Int)
    (query : String) (docs : List Doc)
    (hlex : ∀ a b : String, 0 ≤ lex a b ∧ lex a b ≤ 100) :
    (∀ d : Doc, ∀ h : ScoredHit, fuzzyHitFor lex query d = some h →
      max (lex query d.title.toLower) (lex query d.content.toLower) ≤ h.score ∧
      80 ≤ h.score ∧ h.score ≤ 200) ∧
    (fuzzyRank lex query docs ≠ [] →
      80 ≤ maxOrDefault ((fuzzyRank lex query docs).map (·.score))) ∧
    (∀ sem : List ScoredHit,
      searchResults (fuzzyRank lex query docs) sem =
        if (fillResults (sortByScoreDesc (fuzzyRank lex query docs))
            [] []).1.length < 6 then
          (fillResults (sortByScoreDesc sem)
            (fillResults (sortByScoreDesc (fuzzyRank lex query docs)) [] []).1
            (fillResults (sortByScoreDesc (fuzzyRank lex query docs)) [] []).2).1
        else
          (fillResults (sortByScoreDesc (fuzzyRank lex query docs))
            [] []).1) := by
  refine ⟨?_, fuzzyRank_maxOrDefault_ge lex query docs, ?_⟩
  · intro d h hsome
    have ht := (hlex query d.title.toLower).2
    have hc := (hlex query d.content.toLower).2
    unfold fuzzyHitFor at hsome
    dsimp only at hsome
    split at hsome
    case isTrue hge =>
      injection hsome with hsome
      subst hsome
      dsimp only
      refine ⟨?_, ?_, ?_⟩ <;> (split_ifs <;> omega)
    case isFalse => cases hsome
  · intro sem
    rw [searchResults_def]
    by_cases hlen : (fillResults (sortByScoreDesc (fuzzyRank lex query docs))
        [] []).1.length < 6
    · rw [if_pos (Or.inl hlen), if_pos hlen]
    · have hne : fuzzyRank lex query docs ≠ [] := by
        intro h0
        apply hlen
        rw [h0]
        have h0' : sortByScoreDesc ([] : List ScoredHit) = [] := by
          simp [sortByScoreDesc]
        rw [h0']
        simp [fillResults]
      have hmax := fuzzyRank_maxOrDefault_ge lex query docs hne
      rw [if_neg (by push_neg; exact ⟨by omega, by omega⟩), if_neg hlen]

/-- Witness for C10: the constant lexical scorer 100 lies in [0,100] and
the three conclusions hold at a one-document corpus. -/
theorem boost_monotone_backfill_witness :
    (∀ a b : String, 0 ≤ (fun _ _ => (100 : Int)) a b ∧
      (fun _ _ => (100 : Int)) a b ≤ 100) ∧
    ((∀ d : Doc, ∀ h : ScoredHit,
        fuzzyHitFor (fun _ _ => (100 : Int)) "q" d = some h →
        max ((fun _ _ => (100 : Int)) "q" d.title.toLower)
            ((fun _ _ => (100 : Int)) "q" d.content.toLower) ≤ h.score ∧
        80 ≤ h.score ∧ h.score ≤ 200) ∧
    (fuzzyRank (fun _ _ => (100 : Int)) "q" [⟨"t", "u", "c"⟩] ≠ [] →
      80 ≤ maxOrDefault ((fuzzyRank (fun _ _ => (100 : Int)) "q"
        [⟨"t", "u", "c"⟩]).map (·.score))) ∧
    (∀ sem : List ScoredHit,
      searchResults (fuzzyRank (fun _ _ => (100 : Int)) "q"
          [⟨"t", "u", "c"⟩]) sem =
        if (fillResults (sortByScoreDesc (fuzzyRank (fun _ _ => (100 : Int))
            "q" [⟨"t", "u", "c"⟩])) [] []).1.length < 6 then
          (fillResults (sortByScoreDesc sem)
            (fillResults (sortByScoreDesc (fuzzyRank (fun _ _ => (100 : Int))
              "q" [⟨"t", "u", "c"⟩])) [] []).1
            (fillResults (sortByScoreDesc (fuzzyRank (fun _ _ => (100 : Int))
              "q" [⟨"t", "u", "c"⟩])) [] []).2).1
        else
          (fillResults (sortByScoreDesc (fuzzyRank (fun _ _ => (100 : Int))
            "q" [⟨"t", "u", "c"⟩])) [] []).1)) :=
  have hlex : ∀ a b : String, 0 ≤ (fun _ _ => (100 : Int)) a b ∧
      (fun _ _ => (100 : Int)) a b ≤ 100 := fun _ _ =>
    ⟨by norm_num, by norm_num⟩
  ⟨hlex, boost_monotone_backfill (fun _ _ => (100 : Int)) "q"
    [⟨"t", "u", "c"⟩] hlex⟩

end KBSearch
